import Mathlib

/-!
Verification of the `analise_sensoriamento_pthreads` CSV pipeline.

Shallow embedding of the C sources under
`projects/analise_sensoriamento_pthreads/src/`: byte buffers are lists of
characters, pointers into the mapped file are natural-number offsets, and
`malloc`/`realloc` are assumed to succeed.  Each definition is annotated with
the C function it embeds.
-/

namespace SensorCsv

/-- Byte buffers (the mmapped file, chunks, received results) as lists of
characters; a `Char` stands for one byte. -/
abbrev Bytes := List Char

/-! ## Line counting (line_count.c, thread_utils.c) -/

/-- One iteration bound for the `memchr` loop of `count_lines_in_memory`:
each iteration consumes at least one byte, so `data.length` steps suffice.
The `fuel` argument only makes the recursion structural. -/
def countLinesGo : Nat → Bytes → Nat
  | 0, _ => 0
  | _, [] => 0
  | fuel + 1, data =>
    match data.findIdx? (· = '\n') with
    | some i => 1 + countLinesGo fuel (data.drop (i + 1))
    | none => 1

/-- The function `count_lines_in_memory` (line_count.c:100-123): repeatedly `memchr` for
LF, counting one line per LF found and one more for a non-empty tail with no
trailing LF. -/
def count_lines_in_memory (data : Bytes) : Nat :=
  countLinesGo data.length data

/-- The function `calculate_block_size` (thread_utils.c:199-209): every block gets
`total/T` bytes and the last block absorbs the remainder. -/
def calculate_block_size (T n i : Nat) : Nat :=
  if i = T - 1 then n / T + n % T else n / T

/-- Realigned start of block `i ≥ 1` per `adjust_block_boundaries`
(thread_utils.c:230-254): scan the block's own nominal range
`[i*(n/T), i*(n/T) + len)` for the first LF and move the start just past it;
if the range has no LF the whole block is given to its predecessor and the
start becomes the nominal end. -/
def alignedStart (data : Bytes) (T i : Nat) : Nat :=
  let o := i * (data.length / T)
  let len := calculate_block_size T data.length i
  match ((data.drop o).take len).findIdx? (· = '\n') with
  | some j => o + j + 1
  | none => o + len

/-- Final start offset of block `i` after the sequential
initialize/adjust loop of `start_threads` (thread_utils.c:286-321). -/
def blockStart (data : Bytes) (T i : Nat) : Nat :=
  if i = 0 then 0 else alignedStart data T i

/-- Final end offset of block `i`: the next block's realigned start (each
adjustment donates the removed prefix to the previous block), or the end of
the buffer for the last block. -/
def blockEnd (data : Bytes) (T i : Nat) : Nat :=
  if i + 1 < T then blockStart data T (i + 1) else data.length

/-- The bytes of block `i` scanned by `count_lines_worker`. -/
def blockSlice (data : Bytes) (T i : Nat) : Bytes :=
  (data.take (blockEnd data T i)).drop (blockStart data T i)

/-- The function `correct_duplicate_lines` (thread_utils.c:259-281): for each interior
boundary, count one "duplicate" when the previous block's last byte and the
current block's first byte are both present and both differ from LF. -/
def correct_duplicate_lines (data : Bytes) (T : Nat) : Nat :=
  if T ≤ 1 then 0
  else
    (((List.range T).drop 1).filter (fun i =>
      let s := blockStart data T i
      decide (1 < s) && decide (data.getD (s - 1) '\n' ≠ '\n') &&
        decide (s < data.length) && decide (data.getD s '\n' ≠ '\n'))).length

/-- The block-parallel scan of `count_lines_in_memory_parallel`
(line_count.c:135-246) with `T` worker threads, modelled sequentially: each
worker runs the same loop as `count_lines_in_memory` on its realigned block
(`count_lines_worker`, line_count.c:254-325), the per-block counts are summed
by `join_threads_and_collect_results`, and `correct_duplicate_lines` is
subtracted. -/
def countLinesParallelScan (data : Bytes) (T : Nat) : Int :=
  ((List.range T).map (fun i => (count_lines_in_memory (blockSlice data T i) : Int))).sum
    - correct_duplicate_lines data T

/-- The function `count_lines_in_memory_parallel` (line_count.c:135-246) chooses the
thread count itself: the sequential loop below 100 KiB, two threads below
1 MiB, and the processor count otherwise. -/
def count_lines_in_memory_parallel (data : Bytes) (numProcessors : Nat) : Int :=
  if data.length = 0 then 0
  else if data.length < 102400 then count_lines_in_memory data
  else
    let T := if data.length < 1048576 then 2 else numProcessors
    countLinesParallelScan data T

/-! ## Device hash table (hash_table.c) -/

/-- The function `hash_string` (hash_table.c:32-41): FNV-1a over the id bytes, with the
32-bit unsigned wrap-around of the C `unsigned int` made explicit. -/
def hash_string (id : Bytes) : Nat :=
  id.foldl (fun h c => ((h ^^^ c.toNat) * 16777619) % 2 ^ 32) 2166136261

/-- One chained-bucket entry (`DeviceEntry`, hash_table.c): the owned device
id and the ordered line references (offsets into the mapping). -/
structure DeviceEntry where
  device_id : Bytes
  lines : List Nat
  deriving Repr, DecidableEq

/-- The struct `DeviceHashTable` (hash_table.c): chained buckets, bucket index
`hash_string(id) % bucket_count`. -/
structure DeviceHashTable where
  bucket_count : Nat
  device_column : Nat
  buckets : List (List DeviceEntry)
  deriving Repr, DecidableEq

/-- The function `device_hash_table_create` (hash_table.c:86-104); a non-positive bucket
count falls back to `DEFAULT_HASH_BUCKET_COUNT = 10007`. -/
def device_hash_table_create (bucketCount deviceColumn : Nat) : DeviceHashTable :=
  let bc := if bucketCount = 0 then 10007 else bucketCount
  ⟨bc, deviceColumn, List.replicate bc []⟩

/-- Bucket index of a device id. -/
def bucketIdx (t : DeviceHashTable) (id : Bytes) : Nat :=
  hash_string id % t.bucket_count

/-- The column-skipping loop of `extract_device_id` (hash_table.c:135-141):
each step is `strchr(p, '|')`, which searches the remaining mapped bytes and
does NOT stop at the current line's LF. -/
def skipPipes : Nat → Bytes → Option Bytes
  | 0, s => some s
  | k + 1, s =>
    match s.findIdx? (· = '|') with
    | none => none
    | some i => skipPipes k (s.drop (i + 1))

/-- The function `extract_device_id` (hash_table.c:128-162): skip `col` pipes, then take
bytes up to the next pipe (searched first, across LFs, per `strchr`), else up
to the next LF, else to the end of the mapping. `none` models the NULL
return for a line with too few pipes in the rest of the mapping. -/
def extract_device_id (mapping : Bytes) (off col : Nat) : Option Bytes :=
  (skipPipes col (mapping.drop off)).map fun s =>
    match s.findIdx? (· = '|') with
    | some j => s.take j
    | none =>
      match s.findIdx? (· = '\n') with
      | some j => s.take j
      | none => s

/-- Append a line offset to the first entry of a chain whose id matches
(hash_table.c:180-184 and 217). -/
def appendLineToEntry (id : Bytes) (off : Nat) : List DeviceEntry → List DeviceEntry
  | [] => []
  | e :: es =>
    if e.device_id = id then { e with lines := e.lines ++ [off] } :: es
    else e :: appendLineToEntry id off es

/-- Chain update of `device_hash_table_add_line`: append to the existing
entry, or push a fresh entry (with this single line) at the head of the
chain (hash_table.c:187-199, 217). -/
def insertIntoBucket (id : Bytes) (off : Nat) (b : List DeviceEntry) : List DeviceEntry :=
  if b.any (·.device_id = id) then appendLineToEntry id off b
  else ⟨id, [off]⟩ :: b

/-- The function `device_hash_table_add_line` (hash_table.c:167-223): `none` when
`extract_device_id` fails (the C returns -1 and leaves the table unchanged);
allocation is assumed to succeed. -/
def device_hash_table_add_line (mapping : Bytes) (t : DeviceHashTable) (off : Nat) :
    Option DeviceHashTable :=
  (extract_device_id mapping off t.device_column).map fun id =>
    let h := bucketIdx t id
    { t with buckets := t.buckets.set h (insertIntoBucket id off (t.buckets.getD h [])) }

/-- The function `device_hash_table_get_lines` (hash_table.c:228-252): search the chain of
the id's bucket; a missing device yields count 0 (modelled as `[]`). -/
def device_hash_table_get_lines (t : DeviceHashTable) (id : Bytes) : List Nat :=
  match (t.buckets.getD (bucketIdx t id) []).find? (·.device_id = id) with
  | some e => e.lines
  | none => []

/-- The function `device_hash_table_get_all_devices` (hash_table.c:257-295): buckets in
ascending index order, each chain from its head (most recently inserted
first). -/
def device_hash_table_get_all_devices (t : DeviceHashTable) : List Bytes :=
  (t.buckets.map (fun b => b.map (·.device_id))).flatten

/-- The sum the C7 claim computes: per-device line counts obtained through
`device_hash_table_get_all_devices` and `device_hash_table_get_lines`. -/
def deviceLinesSum (t : DeviceHashTable) : Nat :=
  ((device_hash_table_get_all_devices t).map
    (fun d => (device_hash_table_get_lines t d).length)).sum

/-- End offset of the line starting at `curr`: `strchr(curr, '\n')`, or
the end of the mapping when there is no further LF (hash_table.c:390-394). -/
def lineEndFrom (mapping : Bytes) (curr : Nat) : Nat :=
  match (mapping.drop curr).findIdx? (· = '\n') with
  | some i => curr + i
  | none => mapping.length

/-- One iteration of the `map_device_csv` line loop (hash_table.c:396-407):
a non-empty line is counted and inserted (the insertion may fail, which is
the malformed case); an empty line is neither counted nor inserted.  Returns
the new table, the `line_count` increment and the failed-insert increment. -/
def addLineStep (mapping : Bytes) (t : DeviceHashTable) (curr lineEnd : Nat) :
    DeviceHashTable × Nat × Nat :=
  if curr < lineEnd then
    match device_hash_table_add_line mapping t curr with
    | some t2 => (t2, 1, 0)
    | none => (t, 1, 1)
  else (t, 0, 0)

/-- The line loop of `map_device_csv` (hash_table.c:388-416): walk the data
lines after the header, skip empty lines, insert every non-empty line into
the table (counting it even when `device_hash_table_add_line` fails).
Returns the table, `line_count`, and the number of failed insertions. The
fuel only makes the recursion structural; `mapping.length + 1` steps
suffice because `curr` strictly increases. -/
def buildDeviceTableGo (mapping : Bytes) :
    Nat → DeviceHashTable → Nat → DeviceHashTable × Nat × Nat
  | 0, t, _ => (t, 0, 0)
  | fuel + 1, t, curr =>
    if curr < mapping.length then
      let step := addLineStep mapping t curr (lineEndFrom mapping curr)
      let rest := buildDeviceTableGo mapping fuel step.1 (lineEndFrom mapping curr + 1)
      (rest.1, step.2.1 + rest.2.1, step.2.2 + rest.2.2)
    else (t, 0, 0)

/-- Result of `map_device_csv` (hash_table.c:300-426), keeping the malformed
count for the accounting theorems. -/
structure DeviceMappedCSV where
  header : Bytes
  table : DeviceHashTable
  data_count : Nat
  malformed : Nat
  deriving Repr, DecidableEq

/-- The table-building phase of `map_device_csv`: a fresh table from
`device_hash_table_create` fed through the line loop starting at `start`. -/
def deviceTableBuild (mapping : Bytes) (bucketCount col start : Nat) :
    DeviceHashTable × Nat × Nat :=
  buildDeviceTableGo mapping (mapping.length + 1)
    (device_hash_table_create bucketCount col) start

/-- The function `map_device_csv` (hash_table.c:300-426): reject an empty file or a file
with no header LF, create the table (10007 buckets unless the estimated line
count `size/100` exceeds one million) and insert every non-empty data line
after the header. -/
def map_device_csv (mapping : Bytes) (deviceColumn : Nat) : Option DeviceMappedCSV :=
  if mapping.length = 0 then none
  else
    match mapping.findIdx? (· = '\n') with
    | none => none
    | some headerEnd =>
      let bucketCount := if mapping.length / 100 > 1000000 then 100003 else 10007
      let r := deviceTableBuild mapping bucketCount deviceColumn (headerEnd + 1)
      some ⟨mapping.take headerEnd, r.1, r.2.1, r.2.2⟩

/-! ## Balanced partitioner (`partition_csv_by_device_threaded`,
data_analysis.c:633-995) -/

/-- The struct `DeviceInfo` (data_analysis.c:652-655). -/
structure DeviceInfo where
  device_id : Bytes
  line_count : Nat
  deriving Repr, DecidableEq

/-- Fill of the `devices` array (data_analysis.c:670-676): the enumeration
order of `device_hash_table_get_all_devices`, each with its line count. -/
def deviceInfosOf (t : DeviceHashTable) : List DeviceInfo :=
  (device_hash_table_get_all_devices t).map
    (fun id => ⟨id, (device_hash_table_get_lines t id).length⟩)

/-- One bounded sweep of the bubble sort (the inner `j` loop,
data_analysis.c:681-687): compare `m` adjacent pairs from the front, swapping
when the left line count is strictly smaller. -/
def bubbleSweep : Nat → List DeviceInfo → List DeviceInfo
  | _, [] => []
  | _, [a] => [a]
  | 0, l => l
  | m + 1, a :: b :: rest =>
    if a.line_count < b.line_count then b :: bubbleSweep m (a :: rest)
    else a :: bubbleSweep m (b :: rest)

/-- The outer `i` loop of the bubble sort (data_analysis.c:680-688): pass `i`
sweeps `device_count - 1 - i` adjacent pairs. -/
def bubbleSortGo : Nat → List DeviceInfo → List DeviceInfo
  | 0, l => l
  | k + 1, l => bubbleSortGo k (bubbleSweep (k + 1) l)

/-- The device sort of `partition_csv_by_device_threaded`
(data_analysis.c:678-688): bubble sort, descending by line count.  The C
comparison looks only at `line_count`; ties are never reordered (the sort is
stable), so tied devices stay in hash-table enumeration order. -/
def bubbleSortDevices (l : List DeviceInfo) : List DeviceInfo :=
  bubbleSortGo (l.length - 1) l

/-- The argmin scan over `thread_allocations[t].total_lines`
(data_analysis.c:735-742): strict `<`, so ties keep the lowest index. -/
def pickMinGo : List Nat → Nat → Nat → Nat → Nat
  | [], _, best, _ => best
  | x :: rest, i, best, bestVal =>
    if x < bestVal then pickMinGo rest (i + 1) i x
    else pickMinGo rest (i + 1) best bestVal

/-- The scan for `min_lines_thread` (data_analysis.c:735-742): index 0, then scan
indices 1.. for a strictly smaller total. -/
def pickMinIdx : List Nat → Nat
  | [] => 0
  | x :: rest => pickMinGo rest 1 0 x

/-- The struct `ThreadAllocation` (data_analysis.c:691-696). -/
structure ThreadAlloc where
  total_lines : Nat
  assigned : List DeviceInfo
  deriving Repr, DecidableEq

/-- The greedy distribution loop (data_analysis.c:732-766): each device, in
sorted order, is appended to the thread with the least `total_lines`
(`realloc` assumed to succeed, so the append always happens). -/
def assignDevices (devs : List DeviceInfo) (numThreads : Nat) : List ThreadAlloc :=
  devs.foldl
    (fun allocs d =>
      let k := pickMinIdx (allocs.map (·.total_lines))
      let old := allocs.getD k ⟨0, []⟩
      allocs.set k ⟨old.total_lines + d.line_count, old.assigned ++ [d]⟩)
    (List.replicate numThreads ⟨0, []⟩)

/-- The constant `BUFFER_SIZE` (data_analysis.c:784): 1 MiB reusable buffer. -/
def bufferSize : Nat := 1048576

/-- Buffer-list state of the per-thread chunk assembly
(data_analysis.c:809-820): the saved buffers, the buffer-list capacity
(initialised to 0) and the bytes currently in the reusable buffer. -/
structure BufState where
  bufList : List Bytes
  bufCap : Nat
  cur : Bytes
  deriving Repr, DecidableEq

/-- Adding one line to the thread buffer (data_analysis.c:834-901): when the
line would overflow the 1 MiB buffer, grow the buffer-list capacity if needed
(0 → 4, then doubling) and save the current buffer; then copy the line and
append an LF unless the last byte written is already an LF. -/
def addLineBytesToBuf (data : Bytes) (st : BufState) (off : Nat) : BufState :=
  if off < data.length then
    let lineLen :=
      match (data.drop off).findIdx? (· = '\n') with
      | some i => i
      | none => data.length - off
    let st1 :=
      if bufferSize ≤ st.cur.length + lineLen + 2 then
        let cap :=
          if st.bufCap ≤ st.bufList.length then
            (if st.bufCap = 0 then 4 else st.bufCap * 2)
          else st.bufCap
        if st.bufList.length < cap then BufState.mk (st.bufList ++ [st.cur]) cap []
        else BufState.mk st.bufList cap []
      else st
    let withLine := st1.cur ++ (data.drop off).take lineLen
    let withNl :=
      if withLine.getLast? = some '\n' then withLine else withLine ++ ['\n']
    BufState.mk st1.bufList st1.bufCap withNl
  else st

/-- Assembly of one thread's chunk (data_analysis.c:803-967): fold the
assigned devices' lines (file order within each device, devices in assignment
order) through the buffer; then the final-buffer save — which the C guards by
`buffer_count < buffer_capacity`, where the capacity starts at 0 — and
concatenate the saved buffers.  `some c` is the chunk enqueued for this
thread; `some []` is the explicit empty chunk for a thread with no devices
(data_analysis.c:928-935); `none` models the "Failed to create chunk" path
(data_analysis.c:950-953), which enqueues nothing. -/
def buildThreadChunk (data : Bytes) (t : DeviceHashTable) (alloc : ThreadAlloc) :
    Option Bytes :=
  let offs := alloc.assigned.flatMap (fun d => device_hash_table_get_lines t d.device_id)
  let st := offs.foldl (addLineBytesToBuf data) (BufState.mk [] 0 [])
  let st2 :=
    if 0 < st.cur.length ∧ st.bufList.length < st.bufCap then
      BufState.mk (st.bufList ++ [st.cur]) st.bufCap st.cur
    else st
  let total := (st2.bufList.map List.length).sum
  if 0 < total then some st2.bufList.flatten
  else if alloc.assigned.length = 0 then some []
  else none

/-- The function `partition_csv_by_device_threaded` (data_analysis.c:633-995): the chunks
enqueued on the queue, in thread order.  The C returns 0 chunks for an empty
table or a non-positive thread count. -/
def partition_csv_by_device_threaded (data : Bytes) (t : DeviceHashTable)
    (numThreads : Nat) : List Bytes :=
  if numThreads = 0 then []
  else
    let ids := device_hash_table_get_all_devices t
    if ids.isEmpty then []
    else
      let sorted := bubbleSortDevices (deviceInfosOf t)
      let allocs := assignDevices sorted numThreads
      allocs.filterMap (buildThreadChunk data t)

/-- A device index built from a mapping by exactly the line loop of
`map_device_csv` (hash_table.c:381-416), with a caller-chosen bucket count:
`device_hash_table_create` accepts any positive count, `map_device_csv`
passes 10007 and the other hash_table.c iteration uses
`DEFAULT_HASH_BUCKET_COUNT = 101`.  The bucket count affects only bucket
placement, not which devices or line references the index holds. -/
def deviceTableVia (mapping : Bytes) (bucketCount col : Nat) : DeviceHashTable :=
  (deviceTableBuild mapping bucketCount col
    ((mapping.findIdx? (· = '\n')).getD mapping.length + 1)).1

/-- Modelled from the spec (§4.4 step 2): lexicographic byte order on device
ids, the tie-break the claim prescribes. -/
def lexLeBytes : Bytes → Bytes → Bool
  | [], _ => true
  | _ :: _, [] => false
  | a :: as, b :: bs => if a = b then lexLeBytes as bs else decide (a < b)

/-- Modelled from the spec (§4.4 step 2): the claimed order on devices —
line count descending, ties by lexicographic device id. -/
def specDevLe (a b : DeviceInfo) : Bool :=
  decide (b.line_count < a.line_count) ||
    (decide (a.line_count = b.line_count) && lexLeBytes a.device_id b.device_id)

/-- Modelled from the spec (§4.4 step 2): insertion step of the reference
sort by `specDevLe`. -/
def specInsert (d : DeviceInfo) : List DeviceInfo → List DeviceInfo
  | [] => [d]
  | e :: es => if specDevLe d e then d :: e :: es else e :: specInsert d es

/-- Modelled from the spec (§4.4 step 2): the sort the claim describes —
descending line count with lexicographic tie-break. -/
def specSortDevices : List DeviceInfo → List DeviceInfo
  | [] => []
  | d :: ds => specInsert d (specSortDevices ds)

/-! ### Properties of the device sort and the greedy assignment -/

/-- Descending order on device line counts, the partitioner's sort order. -/
def devGe (a b : DeviceInfo) : Prop := b.line_count ≤ a.line_count

/-- Every element of `pre` dominates (has at least the line count of) every
element of `suf`. -/
def Dominated (pre suf : List DeviceInfo) : Prop :=
  ∀ x ∈ pre, ∀ y ∈ suf, y.line_count ≤ x.line_count

/-! ## Column lookup and orchestrator (main.c) -/

/-- The space trim of `find_device_column` (main.c:214-217): skip leading
ASCII spaces, then cut trailing spaces.  The C's `end > token` guard can
never remove the first character, which after the leading trim is never a
space, so this is a plain two-sided trim. -/
def trimSpaces (s : Bytes) : Bytes :=
  ((s.dropWhile (· = ' ')).reverse.dropWhile (· = ' ')).reverse

/-- Non-delimiter test for `strtok(.., "|")`. -/
def isNotPipe (c : Char) : Bool := c ≠ '|'

/-- The `strtok(header_copy, "|")` token stream of `find_device_column`
(main.c:212-227): maximal non-empty runs of non-pipe bytes; leading,
trailing and consecutive pipes yield no token.  Fuel only makes the
recursion structural; `s.length` steps suffice. -/
def strtokPipeGo : Nat → Bytes → List Bytes
  | 0, _ => []
  | _, [] => []
  | fuel + 1, c :: rest =>
    if c = '|' then strtokPipeGo fuel rest
    else (c :: rest.takeWhile isNotPipe) :: strtokPipeGo fuel (rest.dropWhile isNotPipe)

/-- The `strtok` token list of a header. -/
def strtokPipe (s : Bytes) : List Bytes :=
  strtokPipeGo s.length s

/-- The token loop of `find_device_column` (main.c:213-227): trim each
`strtok` token and return the index of the first match. -/
def find_device_column_go (name : Bytes) : List Bytes → Nat → Option Nat
  | [], _ => none
  | t :: ts, i => if trimSpaces t = name then some i else find_device_column_go name ts (i + 1)

/-- The function `find_device_column` (main.c:202-231); `none` models the -1 not-found
return. -/
def find_device_column (header name : Bytes) : Option Nat :=
  find_device_column_go name (strtokPipe header) 0

/-- Modelled from the spec (§4.3 column location): split the header on pipe
bytes, KEEPING empty fields, as "header bytes are split on pipe" describes. -/
def splitPipe : Bytes → List Bytes
  | [] => [[]]
  | c :: rest =>
    if c = '|' then [] :: splitPipe rest
    else
      match splitPipe rest with
      | [] => [[c]]
      | f :: fs => (c :: f) :: fs

/-- Modelled from the spec (§4.3): the index, among ALL pipe-separated
fields, of the first field whose trimmed bytes equal the requested name. -/
def specFindDeviceColumn (header name : Bytes) : Option Nat :=
  ((splitPipe header).map trimSpaces).findIdx? (· = name)

/-- Header bytes of a mapped file as `map_csv` (file_mapping.c:159-195)
produces them: everything before the first LF (the whole file when it has no
LF). -/
def headerOfFile (file : Bytes) : Bytes :=
  file.take ((file.findIdx? (· = '\n')).getD file.length)

/-- Outcome of the pre-worker part of `main` (main.c:236-348). -/
inductive MainOutcome where
  | mapFailed
  | columnNotFound
  | partitionFailed
  | launched (chunks : List Bytes)
  deriving Repr, DecidableEq

/-- The pre-worker control flow of `main` (main.c:262-348): map the file
(fails on an empty file), look the device column up in the header —
returning `EXIT_FAILURE` before `map_device_csv`, the partitioner or any
worker when it is absent (main.c:283-290) — then rebuild the index with
`map_device_csv` and partition; zero chunks also exit non-zero
(main.c:343-348).  CLI validation and the worker phase itself are outside
the model. -/
def runMainPipeline (file colName : Bytes) (numProcessors : Nat) : MainOutcome :=
  if file.isEmpty then .mapFailed
  else
    match find_device_column (headerOfFile file) colName with
    | none => .columnNotFound
    | some col =>
      match map_device_csv file col with
      | none => .mapFailed
      | some csv =>
        let chunks := partition_csv_by_device_threaded file csv.table numProcessors
        if chunks.length = 0 then .partitionFailed else .launched chunks

/-- The tail of a pipe split: the fields after the first pipe, when there is
one. -/
def splitTail (s : Bytes) : List Bytes :=
  match s.dropWhile isNotPipe with
  | [] => []
  | _ :: r => splitPipe r

/-! ## Worker tallies and the aggregate total (main.c:47-194, 400-404) -/

/-- The LF tally of one received buffer (main.c:136-140). -/
def lfCount (b : Bytes) : Nat := b.count '\n'

/-- The `worker_func` accumulation (main.c:58-191): the worker adds the LF count
of each successfully received buffer to `total_lines` (an empty receive adds
nothing, which `lfCount [] = 0` also models). -/
def workerTally (recvs : List Bytes) : Nat :=
  (recvs.map lfCount).sum

/-- The `worker_func` result concatenation (main.c:147-154): the received
buffers appended in processing order. -/
def workerResultBuf (recvs : List Bytes) : Bytes :=
  recvs.flatten

/-- The aggregation loop of `main` (main.c:400-404): the plain sum of the
per-worker tallies — no subtraction of any kind. -/
def mainTotalLines (workers : List (List Bytes)) : Nat :=
  (workers.map workerTally).sum

/-- Modelled from the spec (§4.7 aggregate tally): the total the C9 claim
describes — each worker's tally minus one when its result buffer is
non-empty. -/
def specHeaderAdjustedTotal (workers : List (List Bytes)) : Nat :=
  (workers.map (fun w =>
    workerTally w - (if (workerResultBuf w).isEmpty then 0 else 1))).sum

/-! ## get_line over an explicit memory (file_mapping.c:127-152) -/

/-- The `MappedCSV` layout as `get_line` sees it: the mapped region is
`[base, base+size)`, the header is a separate heap allocation at
`headerAddr` (`map_csv` copies the header, file_mapping.c:179-184), and
`line_indices` hold the addresses of the data-line starts. -/
structure MappedCSVMem where
  base : Nat
  size : Nat
  headerAddr : Nat
  data_count : Int
  lineIndices : List Nat
  deriving Repr, DecidableEq

/-- The function `get_line` (file_mapping.c:127-152) over an explicit byte memory
`mem : Nat → Char`.  A negative or too-large `line_number` returns `none`
(NULL, with `*line_length` set to 0).  Otherwise the C searches
`memchr(line_start, '\n', csv->header + csv->data_count - line_start)`:
the bound is the HEADER pointer plus the data-line COUNT — not the mapped
region bound — and when no LF is found inside that window, `line_end`
becomes `csv->header + csv->data_count` itself.  Pointer arithmetic is
modelled over the integers (a negative `memchr` size is an empty window
here; in C it would wrap to a huge `size_t`). -/
def get_line (mem : Nat → Char) (csv : MappedCSVMem) (lineNumber : Int) :
    Option (Bytes × Nat) :=
  if lineNumber < 0 ∨ csv.data_count ≤ lineNumber then none
  else
    let start := csv.lineIndices.getD lineNumber.toNat 0
    let bound : Int := (csv.headerAddr : Int) + csv.data_count - start
    let window := (List.range bound.toNat).map (fun k => start + k)
    let lineEnd :=
      match window.findIdx? (fun a => mem a = '\n') with
      | some j => start + j
      | none => csv.headerAddr + csv.data_count.toNat
    let len := lineEnd - start
    some ((List.range len).map (fun k => mem (start + k)), len)

/-- C10 layout: the file `"h\nAB"` (final data line `"AB"` without trailing
LF) mapped at addresses 0..3, the header copy at address 10, one data line
starting at address 2. -/
def c10Csv : MappedCSVMem := ⟨0, 4, 10, 1, [2]⟩

/-- C10 memory one: the mapped file bytes, the header copy `'h'` at its heap
address 10, plus an unrelated LF at heap address 6. -/
def c10MemA : Nat → Char := fun a =>
  if a = 0 then 'h' else if a = 1 then '\n'
  else if a = 2 then 'A' else if a = 3 then 'B'
  else if a = 6 then '\n' else if a = 10 then 'h' else 'z'

/-- C10 memory two: identical to `c10MemA` on the mapped region
`[0, 4)`, but with no LF anywhere outside it. -/
def c10MemB : Nat → Char := fun a =>
  if a = 0 then 'h' else if a = 1 then '\n'
  else if a = 2 then 'A' else if a = 3 then 'B'
  else if a = 10 then 'h' else 'z'

/-! ## Accounting invariants of the device hash table (for C7) -/

/-- Per-bucket total of stored line references. -/
def bucketLinesSum (b : List DeviceEntry) : Nat :=
  (b.map (fun e => e.lines.length)).sum

/-- Total number of line references stored in the table, bucket by bucket. -/
def entryLinesSum (t : DeviceHashTable) : Nat :=
  (t.buckets.map bucketLinesSum).sum

/-- Well-formedness of a device table: as many buckets as `bucket_count`, a
positive bucket count, every entry chained in the bucket its id hashes to,
and no two entries of one bucket sharing a device id.  `device_hash_table_create`
establishes it and `device_hash_table_add_line` preserves it. -/
def TableWF (t : DeviceHashTable) : Prop :=
  t.buckets.length = t.bucket_count ∧ 0 < t.bucket_count ∧
    (∀ i, i < t.buckets.length →
      ∀ e ∈ t.buckets.getD i [], bucketIdx t e.device_id = i) ∧
    (∀ i, i < t.buckets.length →
      ((t.buckets.getD i []).map (fun e => e.device_id)).Nodup)

/-- The table after one `device_hash_table_add_line` on an empty 101-bucket
table, used to witness the C7 growth property. -/
def c7After : DeviceHashTable :=
  (device_hash_table_add_line "h|d\n1|a\n2|b\nz\n".toList
    (device_hash_table_create 101 1) 4).getD (device_hash_table_create 101 1)

/-- C2: the parallel scan is claimed to agree with the sequential reference
scanner for every buffer and every worker count `T ≥ 1`.  It does not: on
`"ab\ncde\nfg"` with `T = 3`, nominal block 1 (`"cde"`, bytes 3..6) contains
no LF, so realignment leaves the boundary at offset 6 — in the middle of the
logical line `"cde"` whose LF sits exactly at offset 6.  Block 0 counts the
tail `"cde"` and block 1 counts the LF at 6 again, and the
`correct_duplicate_lines` heuristic does not fire because the byte at the
boundary is itself an LF.  The scan returns 4 while the reference scanner
returns 3. -/
theorem C2_parallel_scan_miscounts :
    countLinesParallelScan "ab\ncde\nfg".toList 3 = 4 ∧
      count_lines_in_memory "ab\ncde\nfg".toList = 3 := by
  constructor <;> rfl

/-- C5: `extract_device_id` is claimed to end the id at the next pipe, LF
or end of mapping, whichever comes FIRST, and to fail when the line itself has
fewer than `c` pipes.  The C uses `strchr`, which runs past the line's LF:
on the mapping `"1|A\n2|B\n"` with column 1 the id extracted for the first
line is `"A\n2"` (the next line's pipe ends the search, not the LF), and for
the mapping `"x\n2|B\n"` the pipe-less first line `"x"` is not treated as
malformed — the pipe of the second line is consumed and the id `"B"` is
returned. -/
theorem C5_extract_id_crosses_lf :
    extract_device_id "1|A\n2|B\n".toList 0 1 = some "A\n2".toList ∧
      extract_device_id "x\n2|B\n".toList 0 1 = some "B".toList := by
  constructor <;> rfl

/-- C1: the partitioner is claimed to enqueue exactly `N` chunks, one per
worker.  For the mapping `"id|device\n1|A\n"` (one device, one data line) and
`N = 2`, device `A` is assigned to thread 0, whose 4 bytes `"1|A\n"` never
overflow the 1 MiB buffer; the final-buffer save is guarded by
`buffer_count < buffer_capacity` with the capacity initialised to 0
(data_analysis.c:820, 905), so thread 0's data is dropped and no chunk is
enqueued for it ("Failed to create chunk", data_analysis.c:950-953).  Only
the empty chunk of device-less thread 1 is enqueued: 1 chunk instead of 2. -/
theorem C1_chunk_count_not_worker_count :
    partition_csv_by_device_threaded "id|device\n1|A\n".toList
        (deviceTableVia "id|device\n1|A\n".toList 101 1) 2 = [[]] ∧
      (partition_csv_by_device_threaded "id|device\n1|A\n".toList
        (deviceTableVia "id|device\n1|A\n".toList 101 1) 2).length ≠ 2 := by
  constructor <;> decide

/-- C3: every device known to the index is claimed to have exactly one chunk
holding all of its rows.  On the same single-device mapping as C1, device `A`
is known to the index, yet the only chunk produced is the empty chunk of
thread 1: no chunk contains `A`'s row `"1|A\n"` (nor even the bare bytes
`"1|A"`), because thread 0's buffer was dropped by the `buffer_count <
buffer_capacity` guard. -/
theorem C3_device_rows_in_no_chunk :
    device_hash_table_get_all_devices (deviceTableVia "id|device\n1|A\n".toList 101 1)
        = [['A']] ∧
      ∀ c ∈ partition_csv_by_device_threaded "id|device\n1|A\n".toList
        (deviceTableVia "id|device\n1|A\n".toList 101 1) 2,
        ¬ List.IsInfix "1|A".toList c := by
  constructor <;> decide

/-- C6: chunks are claimed to be LF-terminated, and for the file
`"id|device\nx|Q"` (final line without trailing LF) the chunk is claimed
to end with `"x|Q\n"`.  With `N = 1` the single thread holds device `Q`; its
buffer `"x|Q\n"` (the LF is indeed appended, data_analysis.c:896-899) is then
dropped by the `buffer_count < buffer_capacity` final-save guard, so no chunk
at all is enqueued. -/
theorem C6_trailing_line_chunk_missing :
    partition_csv_by_device_threaded "id|device\nx|Q".toList
      (deviceTableVia "id|device\nx|Q".toList 101 1) 1 = [] := by
  decide

/-- C4: the claim says ties are broken by lexicographic device-id order.
The bubble sort of data_analysis.c:678-688 compares only `line_count`, so
tied devices stay in hash-table enumeration order (ascending FNV-1a bucket).
For the mapping `"device|v\nb|1\nc|2\n"` (devices `b` and `c`, one line
each), `c` hashes to a lower bucket than `b`, the enumeration is `[c, b]`,
and the sorted order keeps `c` first — not the lexicographic `[b, c]` the
claim requires. -/
theorem C4_ties_not_lexicographic :
    bubbleSortDevices
        (deviceInfosOf (deviceTableVia "device|v\nb|1\nc|2\n".toList 101 0))
        = [⟨"c".toList, 1⟩, ⟨"b".toList, 1⟩] ∧
      specSortDevices
        (deviceInfosOf (deviceTableVia "device|v\nb|1\nc|2\n".toList 101 0))
        = [⟨"b".toList, 1⟩, ⟨"c".toList, 1⟩] ∧
      bubbleSortDevices
        (deviceInfosOf (deviceTableVia "device|v\nb|1\nc|2\n".toList 101 0))
        ≠ specSortDevices
          (deviceInfosOf (deviceTableVia "device|v\nb|1\nc|2\n".toList 101 0)) := by
  refine ⟨by decide, by decide, by decide⟩

theorem bubbleSweep_perm (m : Nat) (l : List DeviceInfo) :
    (bubbleSweep m l).Perm l := by
  induction m generalizing l with
  | zero => cases l with
    | nil => exact List.Perm.refl _
    | cons a t => cases t <;> exact List.Perm.refl _
  | succ m ih =>
    cases l with
    | nil => exact List.Perm.refl _
    | cons a t =>
      cases t with
      | nil => exact List.Perm.refl _
      | cons b rest =>
        simp only [bubbleSweep]
        split
        · exact ((ih (a :: rest)).cons b).trans (List.Perm.swap a b rest)
        · exact (ih (b :: rest)).cons a

theorem bubbleSweep_drop (m : Nat) (l : List DeviceInfo) :
    (bubbleSweep m l).drop (m + 1) = l.drop (m + 1) := by
  induction m generalizing l with
  | zero => cases l with
    | nil => rfl
    | cons a t => cases t <;> rfl
  | succ m ih =>
    cases l with
    | nil => rfl
    | cons a t =>
      cases t with
      | nil => rfl
      | cons b rest =>
        simp only [bubbleSweep]
        split
        · show (b :: bubbleSweep m (a :: rest)).drop (m + 2) = rest.drop m
          simpa using ih (a :: rest)
        · show (a :: bubbleSweep m (b :: rest)).drop (m + 2) = rest.drop m
          simpa using ih (b :: rest)

theorem bubbleSweep_take_perm (m : Nat) (l : List DeviceInfo) :
    ((bubbleSweep m l).take (m + 1)).Perm (l.take (m + 1)) := by
  have h : ((bubbleSweep m l).take (m + 1) ++ (bubbleSweep m l).drop (m + 1)).Perm
      (l.take (m + 1) ++ l.drop (m + 1)) := by
    rw [List.take_append_drop, List.take_append_drop]
    exact bubbleSweep_perm m l
  rw [bubbleSweep_drop m l] at h
  exact (List.perm_append_right_iff _).mp h

theorem bubbleSweep_boundary_min (m : Nat) (l : List DeviceInfo)
    (hm : m < l.length) :
    ∃ c rest, (bubbleSweep m l).drop m = c :: rest ∧
      ∀ x ∈ (bubbleSweep m l).take (m + 1), c.line_count ≤ x.line_count := by
  induction m generalizing l with
  | zero =>
    cases l with
    | nil => exact absurd hm (by simp)
    | cons a t =>
      cases t with
      | nil => exact ⟨a, [], rfl, by intro x hx; simp [bubbleSweep] at hx; simp [hx]⟩
      | cons b rest =>
        exact ⟨a, b :: rest, rfl, by intro x hx; simp [bubbleSweep] at hx; simp [hx]⟩
  | succ m ih =>
    cases l with
    | nil => exact absurd hm (by simp)
    | cons a t =>
      cases t with
      | nil => simp at hm
      | cons b rest =>
        have hm2 : m < (a :: rest).length := by simpa using hm
        have hm3 : m < (b :: rest).length := by simpa using hm
        simp only [bubbleSweep]
        split
        · rename_i hab
          obtain ⟨c, r, hdrop, hmin⟩ := ih (a :: rest) hm2
          refine ⟨c, r, by simpa using hdrop, ?_⟩
          intro x hx
          rw [List.take_succ_cons] at hx
          rcases List.mem_cons.mp hx with hx | hx
          · subst hx
            have ha : a ∈ (bubbleSweep m (a :: rest)).take (m + 1) := by
              have : a ∈ (a :: rest).take (m + 1) := by
                simp [List.take_succ_cons]
              exact ((bubbleSweep_take_perm m (a :: rest)).mem_iff).mpr this
            exact le_trans (hmin a ha) (le_of_lt hab)
          · exact hmin x hx
        · rename_i hab
          obtain ⟨c, r, hdrop, hmin⟩ := ih (b :: rest) hm3
          refine ⟨c, r, by simpa using hdrop, ?_⟩
          intro x hx
          rw [List.take_succ_cons] at hx
          rcases List.mem_cons.mp hx with hx | hx
          · subst hx
            have hb : b ∈ (bubbleSweep m (b :: rest)).take (m + 1) := by
              have : b ∈ (b :: rest).take (m + 1) := by
                simp [List.take_succ_cons]
              exact ((bubbleSweep_take_perm m (b :: rest)).mem_iff).mpr this
            exact le_trans (hmin b hb) (Nat.le_of_not_lt hab)
          · exact hmin x hx

theorem bubbleSortGo_perm (k : Nat) (l : List DeviceInfo) :
    (bubbleSortGo k l).Perm l := by
  induction k generalizing l with
  | zero => exact List.Perm.refl _
  | succ k ih => exact (ih _).trans (bubbleSweep_perm _ _)

theorem bubbleSortGo_sorted (k : Nat) (l : List DeviceInfo)
    (h1 : (l.drop (k + 1)).Pairwise devGe)
    (h2 : Dominated (l.take (k + 1)) (l.drop (k + 1))) :
    (bubbleSortGo k l).Pairwise devGe := by
  induction k generalizing l with
  | zero =>
    show l.Pairwise devGe
    cases l with
    | nil => simp
    | cons a t =>
      refine List.pairwise_cons.mpr ⟨?_, ?_⟩
      · intro y hy
        exact h2 a (by simp) y (by simpa using hy)
      · simpa using h1
  | succ k ih =>
    show (bubbleSortGo k (bubbleSweep (k + 1) l)).Pairwise devGe
    by_cases hlen : k + 1 < l.length
    · obtain ⟨c, r, hdrop, hmin⟩ := bubbleSweep_boundary_min (k + 1) l hlen
      have hswdrop : (bubbleSweep (k + 1) l).drop (k + 1 + 1) = l.drop (k + 1 + 1) :=
        bubbleSweep_drop (k + 1) l
      have hr : r = l.drop (k + 1 + 1) := by
        rw [← hswdrop, ← List.drop_drop, hdrop]
        rfl
      have hsub : (bubbleSweep (k + 1) l).take (k + 1)
          ⊆ (bubbleSweep (k + 1) l).take (k + 1 + 1) := by
        intro x hx
        apply List.take_subset (k + 1) ((bubbleSweep (k + 1) l).take (k + 1 + 1))
        rwa [List.take_take, min_eq_left (by omega)]
      have hcmem : c ∈ (bubbleSweep (k + 1) l).take (k + 1 + 1) := by
        rw [List.take_add, List.mem_append, hdrop]
        right
        simp
      have hcmem2 : c ∈ l.take (k + 1 + 1) :=
        ((bubbleSweep_take_perm (k + 1) l).mem_iff).mp hcmem
      apply ih
      · rw [hdrop, hr]
        refine List.pairwise_cons.mpr ⟨?_, h1⟩
        intro y hy
        exact h2 c hcmem2 y hy
      · intro x hx y hy
        rw [hdrop, hr] at hy
        rcases List.mem_cons.mp hy with hy | hy
        · subst hy
          exact hmin x (hsub hx)
        · have hx2 : x ∈ l.take (k + 1 + 1) :=
            ((bubbleSweep_take_perm (k + 1) l).mem_iff).mp (hsub hx)
          exact h2 x hx2 y hy
    · have hlen2 : (bubbleSweep (k + 1) l).length ≤ k + 1 := by
        rw [(bubbleSweep_perm (k + 1) l).length_eq]
        omega
      apply ih
      · rw [List.drop_eq_nil_of_le (by omega)]
        exact List.Pairwise.nil
      · intro x hx y hy
        rw [List.drop_eq_nil_of_le (by omega)] at hy
        simp at hy

theorem bubbleSortDevices_perm (l : List DeviceInfo) :
    (bubbleSortDevices l).Perm l :=
  bubbleSortGo_perm _ l

theorem bubbleSortDevices_sorted (l : List DeviceInfo) :
    (bubbleSortDevices l).Pairwise devGe := by
  apply bubbleSortGo_sorted
  · rw [List.drop_eq_nil_of_le (by omega)]
    simp
  · intro x hx y hy
    rw [List.drop_eq_nil_of_le (by omega)] at hy
    simp at hy

theorem getD_of_drop_eq_cons {l : List Nat} {i x : Nat} {r : List Nat}
    (h : l.drop i = x :: r) : l.getD i 0 = x := by
  have h1 : l[i]? = some x := by rw [← List.head?_drop, h]; rfl
  simp [List.getD, h1]

theorem drop_succ_of_drop_eq_cons {l : List Nat} {i x : Nat} {r : List Nat}
    (h : l.drop i = x :: r) : l.drop (i + 1) = r := by
  rw [← List.drop_drop, h]
  rfl

theorem lt_length_of_drop_eq_cons {l : List Nat} {i x : Nat} {r : List Nat}
    (h : l.drop i = x :: r) : i < l.length := by
  by_contra hc
  rw [List.drop_eq_nil_of_le (by omega)] at h
  exact List.noConfusion h

theorem pickMinGo_correct (totals : List Nat) (rest : List Nat) :
    ∀ (i best bestVal : Nat),
      rest = totals.drop i → best < i → best < totals.length →
      totals.getD best 0 = bestVal →
      (∀ j, j < i → bestVal ≤ totals.getD j 0) →
      (∀ j, j < best → bestVal < totals.getD j 0) →
      pickMinGo rest i best bestVal < totals.length ∧
        (∀ j, j < totals.length →
          totals.getD (pickMinGo rest i best bestVal) 0 ≤ totals.getD j 0) ∧
        (∀ j, j < pickMinGo rest i best bestVal →
          totals.getD (pickMinGo rest i best bestVal) 0 < totals.getD j 0) := by
  induction rest with
  | nil =>
    intro i best bestVal hrest hbi hblen hbv hall hstrict
    have hlen : totals.length ≤ i := by
      by_contra hc
      have : totals.drop i ≠ [] := by
        simp [List.drop_eq_nil_iff]
        omega
      exact this hrest.symm
    refine ⟨hblen, ?_, ?_⟩
    · intro j hj
      rw [show pickMinGo [] i best bestVal = best from rfl, hbv]
      exact hall j (by omega)
    · intro j hj
      rw [show pickMinGo [] i best bestVal = best from rfl, hbv]
      exact hstrict j hj
  | cons x rest' ih =>
    intro i best bestVal hrest hbi hblen hbv hall hstrict
    have hx : totals.getD i 0 = x := getD_of_drop_eq_cons hrest.symm
    have hrest' : rest' = totals.drop (i + 1) := (drop_succ_of_drop_eq_cons hrest.symm).symm
    have hilen : i < totals.length := lt_length_of_drop_eq_cons hrest.symm
    simp only [pickMinGo]
    by_cases hcmp : x < bestVal
    · rw [if_pos hcmp]
      apply ih (i + 1) i x hrest' (by omega) hilen hx
      · intro j hj
        rcases Nat.lt_succ_iff_lt_or_eq.mp hj with hj | hj
        · exact le_of_lt (lt_of_lt_of_le hcmp (hall j hj))
        · subst hj; rw [hx]
      · intro j hj
        exact lt_of_lt_of_le hcmp (hall j (by omega))
    · rw [if_neg hcmp]
      apply ih (i + 1) best bestVal hrest' (by omega) hblen hbv
      · intro j hj
        rcases Nat.lt_succ_iff_lt_or_eq.mp hj with hj | hj
        · exact hall j hj
        · subst hj; rw [hx]; omega
      · exact hstrict

theorem pickMinIdx_correct (totals : List Nat) (h : totals ≠ []) :
    pickMinIdx totals < totals.length ∧
      (∀ j, j < totals.length →
        totals.getD (pickMinIdx totals) 0 ≤ totals.getD j 0) ∧
      (∀ j, j < pickMinIdx totals →
        totals.getD (pickMinIdx totals) 0 < totals.getD j 0) := by
  cases totals with
  | nil => exact absurd rfl h
  | cons t0 ts =>
    apply pickMinGo_correct (t0 :: ts) ts 1 0 t0 rfl (by omega) (by simp) rfl
    · intro j hj
      have : j = 0 := by omega
      subst this
      exact le_refl _
    · intro j hj
      exact absurd hj (by omega)

/-- C4 amended: the partitioner bubble-sorts the devices by line count in
descending order (the sorted list is a permutation of the enumeration,
pairwise descending) — but its comparison looks only at the line count, so
tied devices keep the hash table's enumeration order rather than
lexicographic id order (see the counterexample); each device in sorted order
is then assigned to the thread whose running total is smallest, and on ties
`min_lines_thread` is the lowest such index; for a fixed input and fixed `N`
the pure assignment is deterministic. -/
theorem C4_sort_desc_least_index_assignment :
    (∀ l : List DeviceInfo,
      (bubbleSortDevices l).Perm l ∧ (bubbleSortDevices l).Pairwise devGe) ∧
      (∀ totals : List Nat, totals ≠ [] →
        pickMinIdx totals < totals.length ∧
          (∀ j, j < totals.length →
            totals.getD (pickMinIdx totals) 0 ≤ totals.getD j 0) ∧
          (∀ j, j < pickMinIdx totals →
            totals.getD (pickMinIdx totals) 0 < totals.getD j 0)) :=
  ⟨fun l => ⟨bubbleSortDevices_perm l, bubbleSortDevices_sorted l⟩, pickMinIdx_correct⟩

/-- C4 witness: the amended sorting and argmin facts evaluated at a concrete
device list and a concrete totals vector (`pickMinIdx [3, 1, 1, 2] = 1`, the
lowest-indexed minimum). -/
theorem C4_sort_desc_least_index_assignment_witness :
    ((bubbleSortDevices [⟨['a'], 1⟩, ⟨['b'], 2⟩]).Perm [⟨['a'], 1⟩, ⟨['b'], 2⟩] ∧
        (bubbleSortDevices [⟨['a'], 1⟩, ⟨['b'], 2⟩]).Pairwise devGe) ∧
      (pickMinIdx [3, 1, 1, 2] < 4 ∧
        (∀ j, j < ([3, 1, 1, 2] : List Nat).length →
          List.getD [3, 1, 1, 2] (pickMinIdx [3, 1, 1, 2]) 0 ≤ List.getD [3, 1, 1, 2] j 0) ∧
        (∀ j, j < pickMinIdx [3, 1, 1, 2] →
          List.getD [3, 1, 1, 2] (pickMinIdx [3, 1, 1, 2]) 0 < List.getD [3, 1, 1, 2] j 0)) :=
  ⟨C4_sort_desc_least_index_assignment.1 [⟨['a'], 1⟩, ⟨['b'], 2⟩],
    C4_sort_desc_least_index_assignment.2 [3, 1, 1, 2] (by decide)⟩

/-- C8: the claim says `find_device_column` splits the header on pipe bytes
and returns the 0-based index of the first (trimmed) field equal to the
requested name.  `strtok` collapses leading and consecutive pipes, so empty
fields are not counted: on the header `"a||device"` the C returns index 1
while splitting on pipe puts `device` at index 2. -/
theorem C8_empty_fields_not_counted :
    find_device_column "a||device".toList "device".toList = some 1 ∧
      specFindDeviceColumn "a||device".toList "device".toList = some 2 ∧
      find_device_column "a||device".toList "device".toList ≠
        specFindDeviceColumn "a||device".toList "device".toList := by
  refine ⟨by decide, by decide, by decide⟩

theorem splitPipe_eq_takeWhile_cons (s : Bytes) :
    splitPipe s = s.takeWhile isNotPipe :: splitTail s := by
  induction s with
  | nil => rfl
  | cons c rest ih =>
    by_cases hc : c = '|'
    · subst hc
      simp [splitPipe, splitTail, List.takeWhile_cons, List.dropWhile_cons, isNotPipe]
    · have hnp : isNotPipe c = true := by simp [isNotPipe, hc]
      simp only [splitPipe, hc, if_neg, ite_false]
      rw [ih]
      simp [List.takeWhile_cons, List.dropWhile_cons, hnp, splitTail]

theorem dropWhile_pipe_head (l : Bytes) :
    ∀ d r, l.dropWhile isNotPipe = d :: r → d = '|' := by
  induction l with
  | nil => intro d r h; simp [List.dropWhile] at h
  | cons c rest ih =>
    intro d r h
    by_cases hc : c = '|'
    · subst hc
      rw [List.dropWhile_cons] at h
      simp [isNotPipe] at h
      exact h.1.symm
    · have hnp : isNotPipe c = true := by simp [isNotPipe, hc]
      rw [List.dropWhile_cons, if_pos hnp] at h
      exact ih d r h

theorem strtokPipeGo_eq_filter (fuel : Nat) :
    ∀ s : Bytes, s.length ≤ fuel →
      strtokPipeGo fuel s = (splitPipe s).filter (fun f => !f.isEmpty) := by
  induction fuel with
  | zero =>
    intro s hs
    have : s = [] := List.eq_nil_of_length_eq_zero (Nat.le_zero.mp hs)
    subst this
    rfl
  | succ fuel ih =>
    intro s hs
    cases s with
    | nil => rfl
    | cons c rest =>
      have hr : rest.length ≤ fuel := by
        simpa using Nat.succ_le_succ_iff.mp (by simpa using hs)
      by_cases hc : c = '|'
      · subst hc
        have h1 : strtokPipeGo (fuel + 1) ('|' :: rest) = strtokPipeGo fuel rest := by
          simp [strtokPipeGo]
        rw [h1, ih rest hr]
        simp [splitPipe]
      · have hnp : isNotPipe c = true := by simp [isNotPipe, hc]
        have h1 : strtokPipeGo (fuel + 1) (c :: rest)
            = (c :: rest.takeWhile isNotPipe)
              :: strtokPipeGo fuel (rest.dropWhile isNotPipe) := by
          simp [strtokPipeGo, hc]
        have hlen : (rest.dropWhile isNotPipe).length ≤ fuel :=
          le_trans (List.dropWhile_sublist _).length_le hr
        rw [h1, ih _ hlen, splitPipe_eq_takeWhile_cons (c :: rest)]
        rw [List.takeWhile_cons, if_pos hnp]
        simp only [List.filter_cons, List.isEmpty_cons, Bool.not_false, if_pos]
        congr 1
        have hdrop2 : splitTail (c :: rest)
            = match rest.dropWhile isNotPipe with
              | [] => []
              | _ :: r => splitPipe r := by
          unfold splitTail
          rw [List.dropWhile_cons, if_pos hnp]
        rw [hdrop2]
        cases hdrop : rest.dropWhile isNotPipe with
        | nil => simp [splitPipe]
        | cons d r =>
          have hd : d = '|' := dropWhile_pipe_head rest d r hdrop
          subst hd
          simp [splitPipe]

/-- C8 amended: `find_device_column` tokenizes with `strtok`, so empty
fields (leading or consecutive pipes) are skipped and NOT counted: the
returned value is the index of the first trimmed match among the NON-EMPTY
pipe-separated fields of the header.  When no field matches, `main` exits
with a non-zero status (`columnNotFound`) before `map_device_csv`, the
partitioner or any worker runs. -/
theorem C8_column_index_counts_nonempty_fields :
    (∀ header name : Bytes,
      find_device_column header name
        = find_device_column_go name ((splitPipe header).filter (fun f => !f.isEmpty)) 0) ∧
      (∀ (file colName : Bytes) (n : Nat), ¬ file.isEmpty →
        find_device_column (headerOfFile file) colName = none →
        runMainPipeline file colName n = .columnNotFound) := by
  constructor
  · intro header name
    unfold find_device_column strtokPipe
    rw [strtokPipeGo_eq_filter header.length header le_rfl]
  · intro file colName n h1 h2
    unfold runMainPipeline
    rw [if_neg h1, h2]

/-- C8 witness: on the file `"a|b|c\n1|2|3\n"` with the default column name
`"device"`, the lookup finds nothing and `main` stops with `columnNotFound`
before partitioning. -/
theorem C8_column_index_counts_nonempty_fields_witness :
    runMainPipeline "a|b|c\n1|2|3\n".toList "device".toList 2 = .columnNotFound :=
  C8_column_index_counts_nonempty_fields.2 "a|b|c\n1|2|3\n".toList "device".toList 2
    (by decide) (by decide)

/-- C9: the claim says the reported total subtracts one line per non-empty
worker result.  The aggregation loop of main.c:400-404 sums the raw
tallies: one worker receiving the two-line buffer `"x\ny\n"` yields a
reported total of 2, not the 1 the claim prescribes. -/
theorem C9_no_header_subtraction :
    mainTotalLines [["x\ny\n".toList]] = 2 ∧
      specHeaderAdjustedTotal [["x\ny\n".toList]] = 1 ∧
      mainTotalLines [["x\ny\n".toList]] ≠
        specHeaderAdjustedTotal [["x\ny\n".toList]] := by
  refine ⟨by decide, by decide, by decide⟩

/-- C9 amended: the reported total is the plain sum of the per-worker LF
tallies, i.e. the LF count of all bytes received across all workers; no
per-result subtraction happens in this `main`. -/
theorem C9_total_is_plain_lf_sum (workers : List (List Bytes)) :
    mainTotalLines workers = lfCount (workers.map workerResultBuf).flatten := by
  have hw : ∀ rs : List Bytes, workerTally rs = lfCount (workerResultBuf rs) := by
    intro rs
    induction rs with
    | nil => rfl
    | cons r rs ihr =>
      show lfCount r + workerTally rs = lfCount (r ++ workerResultBuf rs)
      rw [ihr]
      simp [lfCount, List.count_append]
  induction workers with
  | nil => rfl
  | cons w ws ih =>
    show workerTally w + mainTotalLines ws
        = lfCount (workerResultBuf w ++ (ws.map workerResultBuf).flatten)
    rw [hw, ih]
    simp [lfCount, List.count_append]

/-- C10: the range check does return `none` for negative and too-large
indices, but the LF search is bounded by `header + data_count` (a heap
pointer plus a line count), not by the mapped region: for the in-range line
`"AB"` the search window `[2, 11)` leaves the 4-byte mapping, and the result
depends on bytes outside it — memory A (a stray LF at address 6) yields the
4-byte string `"ABzz"`, memory B (same mapped bytes, no LF outside) yields
the 9-byte `"ABzzzzzzh"`; the claim requires `"AB"` (length 2) in both. -/
theorem C10_search_leaves_mapping :
    get_line c10MemA c10Csv (-1) = none ∧
      get_line c10MemA c10Csv 1 = none ∧
      get_line c10MemA c10Csv 0 = some ("ABzz".toList, 4) ∧
      get_line c10MemB c10Csv 0 = some ("ABzzzzzzh".toList, 9) ∧
      (∀ a, a < c10Csv.base + c10Csv.size → c10MemA a = c10MemB a) ∧
      get_line c10MemA c10Csv 0 ≠ get_line c10MemB c10Csv 0 := by
  refine ⟨by decide, by decide, by decide, by decide, by decide, by decide⟩

theorem bucketLinesSum_cons (x : DeviceEntry) (xs : List DeviceEntry) :
    bucketLinesSum (x :: xs) = x.lines.length + bucketLinesSum xs := rfl

theorem appendLineToEntry_ids (id : Bytes) (off : Nat) (b : List DeviceEntry) :
    (appendLineToEntry id off b).map (fun e => e.device_id)
      = b.map (fun e => e.device_id) := by
  induction b with
  | nil => rfl
  | cons e es ih =>
    simp only [appendLineToEntry]
    split
    · simp
    · simp [ih]

theorem bucketLinesSum_appendLine (id : Bytes) (off : Nat) (b : List DeviceEntry)
    (h : b.any (fun e => e.device_id = id) = true) :
    bucketLinesSum (appendLineToEntry id off b) = bucketLinesSum b + 1 := by
  induction b with
  | nil => simp at h
  | cons e es ih =>
    simp only [appendLineToEntry]
    by_cases he : e.device_id = id
    · rw [if_pos he]
      simp only [bucketLinesSum_cons, List.length_append, List.length_singleton]
      omega
    · rw [if_neg he]
      have hes : es.any (fun e => e.device_id = id) = true := by
        simpa [he] using h
      simp only [bucketLinesSum_cons, ih hes]
      omega

theorem bucketLinesSum_insert (id : Bytes) (off : Nat) (b : List DeviceEntry) :
    bucketLinesSum (insertIntoBucket id off b) = bucketLinesSum b + 1 := by
  unfold insertIntoBucket
  split
  · exact bucketLinesSum_appendLine id off b (by assumption)
  · simp only [bucketLinesSum_cons, List.length_singleton]
    omega

theorem find?_appendLine_self (id : Bytes) (off : Nat) (b : List DeviceEntry) :
    (appendLineToEntry id off b).find? (fun e => e.device_id = id)
      = (b.find? (fun e => e.device_id = id)).map
          (fun e => { e with lines := e.lines ++ [off] }) := by
  induction b with
  | nil => rfl
  | cons e es ih =>
    simp only [appendLineToEntry]
    by_cases he : e.device_id = id
    · rw [if_pos he]
      rw [List.find?_cons_of_pos _ (by simpa using he),
        List.find?_cons_of_pos _ (by simpa using he)]
      rfl
    · rw [if_neg he]
      rw [List.find?_cons_of_neg _ (by simpa using he),
        List.find?_cons_of_neg _ (by simpa using he)]
      exact ih

theorem find?_appendLine_other (id : Bytes) (off : Nat) (d : Bytes)
    (b : List DeviceEntry) (hd : d ≠ id) :
    (appendLineToEntry id off b).find? (fun e => e.device_id = d)
      = b.find? (fun e => e.device_id = d) := by
  induction b with
  | nil => rfl
  | cons e es ih =>
    simp only [appendLineToEntry]
    by_cases he : e.device_id = id
    · rw [if_pos he]
      have hne : ¬ e.device_id = d := by rw [he]; exact fun h => hd h.symm
      rw [List.find?_cons_of_neg _ (by simpa using hne),
        List.find?_cons_of_neg _ (by simpa using hne)]
    · rw [if_neg he]
      by_cases hed : e.device_id = d
      · rw [List.find?_cons_of_pos _ (by simpa using hed),
          List.find?_cons_of_pos _ (by simpa using hed)]
      · rw [List.find?_cons_of_neg _ (by simpa using hed),
          List.find?_cons_of_neg _ (by simpa using hed)]
        exact ih

theorem find?_eq_none_of_any_false (b : List DeviceEntry) (d : Bytes)
    (h : b.any (fun e => e.device_id = d) = false) :
    b.find? (fun e => e.device_id = d) = none := by
  rw [List.find?_eq_none]
  intro x hx
  have := List.any_eq_false.mp h x hx
  simpa using this

theorem getD_set_self {α : Type} (l : List α) (i : Nat) (v d : α)
    (h : i < l.length) : (l.set i v).getD i d = v := by
  simp [List.getD, List.getElem?_set_self, h]

theorem getD_set_ne {α : Type} (l : List α) (i j : Nat) (v d : α)
    (h : i ≠ j) : (l.set i v).getD j d = l.getD j d := by
  simp [List.getD, List.getElem?_set_ne h]

theorem sum_map_set (f : List DeviceEntry → Nat) (l : List (List DeviceEntry))
    (i : Nat) (v : List DeviceEntry) (h : i < l.length) :
    ((l.set i v).map f).sum + f (l.getD i []) = (l.map f).sum + f v := by
  induction l generalizing i with
  | nil => simp at h
  | cons x xs ih =>
    cases i with
    | zero => simp [List.getD]; omega
    | succ i =>
      have hi : i < xs.length := by simpa using h
      show ((x :: xs.set i v).map f).sum + f (xs.getD i [])
          = ((x :: xs).map f).sum + f v
      simp only [List.map_cons, List.sum_cons]
      have := ih i hi
      omega

/-- The bucket index is always a valid index into the bucket array. -/
theorem bucketIdx_lt (t : DeviceHashTable) (id : Bytes)
    (hlen : t.buckets.length = t.bucket_count) (hpos : 0 < t.bucket_count) :
    bucketIdx t id < t.buckets.length := by
  rw [hlen]
  exact Nat.mod_lt _ hpos

/-- Shape of a successful `device_hash_table_add_line`: the extracted id and
the single-bucket update, field by field. -/
theorem addLine_eq (mapping : Bytes) (t : DeviceHashTable) (off : Nat)
    (t' : DeviceHashTable)
    (h : device_hash_table_add_line mapping t off = some t') :
    ∃ id, extract_device_id mapping off t.device_column = some id ∧
      t'.bucket_count = t.bucket_count ∧ t'.device_column = t.device_column ∧
      t'.buckets = t.buckets.set (bucketIdx t id)
        (insertIntoBucket id off (t.buckets.getD (bucketIdx t id) [])) := by
  unfold device_hash_table_add_line at h
  cases hext : extract_device_id mapping off t.device_column with
  | none => rw [hext] at h; exact Option.noConfusion h
  | some id =>
    rw [hext] at h
    have ht' := (Option.some_injective _ h).symm
    exact ⟨id, rfl, by rw [ht'], by rw [ht'], by rw [ht']⟩

/-- Unfolding equation for `device_hash_table_get_lines`. -/
theorem getLines_def (t : DeviceHashTable) (id : Bytes) :
    device_hash_table_get_lines t id
      = match (t.buckets.getD (bucketIdx t id) []).find?
          (fun e => e.device_id = id) with
        | some e => e.lines
        | none => [] := rfl

theorem getLines_addLine (mapping : Bytes) (t : DeviceHashTable) (off : Nat)
    (t' : DeviceHashTable)
    (hlen : t.buckets.length = t.bucket_count) (hpos : 0 < t.bucket_count)
    (h : device_hash_table_add_line mapping t off = some t') :
    ∃ id, extract_device_id mapping off t.device_column = some id ∧
      device_hash_table_get_lines t' id = device_hash_table_get_lines t id ++ [off] ∧
      (∀ d, d ≠ id →
        device_hash_table_get_lines t' d = device_hash_table_get_lines t d) := by
  obtain ⟨id, hext, hbc, _, hbk⟩ := addLine_eq mapping t off t' h
  have hidx : bucketIdx t id < t.buckets.length := bucketIdx_lt t id hlen hpos
  have hbi : ∀ d, bucketIdx t' d = bucketIdx t d := by
    intro d
    unfold bucketIdx
    rw [hbc]
  refine ⟨id, hext, ?_, ?_⟩
  · rw [getLines_def, getLines_def, hbi, hbk, getD_set_self _ _ _ _ hidx]
    by_cases hany : (t.buckets.getD (bucketIdx t id) []).any
        (fun e => e.device_id = id) = true
    · unfold insertIntoBucket
      rw [if_pos hany, find?_appendLine_self]
      have hsome : ((t.buckets.getD (bucketIdx t id) []).find?
          (fun e => e.device_id = id)).isSome := by
        rw [List.find?_isSome]
        obtain ⟨x, hx, hpx⟩ := List.any_eq_true.mp hany
        exact ⟨x, hx, hpx⟩
      obtain ⟨e, he⟩ := Option.isSome_iff_exists.mp hsome
      rw [he]
      rfl
    · unfold insertIntoBucket
      rw [if_neg hany]
      rw [List.find?_cons_of_pos _ (by simp)]
      rw [find?_eq_none_of_any_false _ _ (by simpa using hany)]
      rfl
  · intro d hd
    rw [getLines_def, getLines_def, hbi, hbk]
    by_cases hsame : bucketIdx t d = bucketIdx t id
    · rw [hsame, getD_set_self _ _ _ _ hidx]
      unfold insertIntoBucket
      by_cases hany : (t.buckets.getD (bucketIdx t id) []).any
          (fun e => e.device_id = id) = true
      · rw [if_pos hany, find?_appendLine_other id off d _ hd]
      · rw [if_neg hany]
        rw [List.find?_cons_of_neg _ (by simpa using fun h => hd h.symm)]
    · rw [getD_set_ne _ _ _ _ _ (fun h => hsame h.symm)]

theorem entryLinesSum_addLine (mapping : Bytes) (t : DeviceHashTable)
    (off : Nat) (t' : DeviceHashTable)
    (hlen : t.buckets.length = t.bucket_count) (hpos : 0 < t.bucket_count)
    (h : device_hash_table_add_line mapping t off = some t') :
    entryLinesSum t' = entryLinesSum t + 1 := by
  obtain ⟨id, hext, _, _, hbk⟩ := addLine_eq mapping t off t' h
  have hidx : bucketIdx t id < t.buckets.length := bucketIdx_lt t id hlen hpos
  have hsum := sum_map_set bucketLinesSum t.buckets (bucketIdx t id)
    (insertIntoBucket id off (t.buckets.getD (bucketIdx t id) [])) hidx
  have hins := bucketLinesSum_insert id off (t.buckets.getD (bucketIdx t id) [])
  unfold entryLinesSum
  rw [hbk]
  omega

theorem addLine_none_or (mapping : Bytes) (t : DeviceHashTable) (off : Nat)
    (h : device_hash_table_add_line mapping t off = none) :
    extract_device_id mapping off t.device_column = none := by
  unfold device_hash_table_add_line at h
  cases hext : extract_device_id mapping off t.device_column with
  | none => rfl
  | some id => rw [hext] at h; exact Option.noConfusion h

theorem getD_replicate_nil (n i : Nat) :
    (List.replicate n ([] : List DeviceEntry)).getD i [] = [] := by
  induction n generalizing i with
  | zero => cases i <;> rfl
  | succ n ih =>
    cases i with
    | zero => rfl
    | succ i => exact ih i

theorem tableWF_create (bucketCount deviceColumn : Nat) :
    TableWF (device_hash_table_create bucketCount deviceColumn) := by
  have hget : ∀ i, (device_hash_table_create bucketCount deviceColumn).buckets.getD i [] = [] := by
    intro i
    show (List.replicate _ ([] : List DeviceEntry)).getD i [] = []
    exact getD_replicate_nil _ i
  refine ⟨by simp [device_hash_table_create], ?_, ?_, ?_⟩
  · show 0 < (if bucketCount = 0 then 10007 else bucketCount)
    by_cases hbc : bucketCount = 0
    · rw [if_pos hbc]; omega
    · rw [if_neg hbc]; omega
  · intro i _ e he
    rw [hget] at he
    cases he
  · intro i _
    rw [hget]
    exact List.Pairwise.nil

theorem tableWF_addLine (mapping : Bytes) (t : DeviceHashTable) (off : Nat)
    (t' : DeviceHashTable) (hwf : TableWF t)
    (h : device_hash_table_add_line mapping t off = some t') : TableWF t' := by
  obtain ⟨hlen, hpos, hplace, hnd⟩ := hwf
  obtain ⟨id, hext, hbc, _, hbk⟩ := addLine_eq mapping t off t' h
  have hidx : bucketIdx t id < t.buckets.length := bucketIdx_lt t id hlen hpos
  have hbi : ∀ d, bucketIdx t' d = bucketIdx t d := by
    intro d
    unfold bucketIdx
    rw [hbc]
  have hlen' : t'.buckets.length = t.buckets.length := by
    rw [hbk, List.length_set]
  refine ⟨by rw [hlen', hbc, hlen], by rw [hbc]; exact hpos, ?_, ?_⟩
  · intro i hi e he
    rw [hlen'] at hi
    rw [hbi]
    rw [hbk] at he
    by_cases hsame : bucketIdx t id = i
    · rw [← hsame] at he hi ⊢
      rw [getD_set_self _ _ _ _ hidx] at he
      unfold insertIntoBucket at he
      split at he
      · have hids : e.device_id ∈ (appendLineToEntry id off
            (t.buckets.getD (bucketIdx t id) [])).map (fun e => e.device_id) :=
          List.mem_map_of_mem _ he
        rw [appendLineToEntry_ids] at hids
        obtain ⟨e0, he0, heq⟩ := List.mem_map.mp hids
        have := hplace (bucketIdx t id) hidx e0 he0
        rw [heq] at this
        exact this
      · rcases List.mem_cons.mp he with he | he
        · rw [he]
        · exact hplace (bucketIdx t id) hidx e he
    · rw [getD_set_ne _ _ _ _ _ hsame] at he
      exact hplace i hi e he
  · intro i hi
    rw [hlen'] at hi
    rw [hbk]
    by_cases hsame : bucketIdx t id = i
    · rw [← hsame] at hi ⊢
      rw [getD_set_self _ _ _ _ hidx]
      unfold insertIntoBucket
      split
      · rw [appendLineToEntry_ids]
        exact hnd (bucketIdx t id) hidx
      · rename_i hany
        refine List.Pairwise.cons ?_ (hnd (bucketIdx t id) hidx)
        intro x hx
        obtain ⟨e0, he0, heq⟩ := List.mem_map.mp hx
        have := List.any_eq_false.mp (Bool.not_eq_true _ ▸ hany) e0 he0
        simp only [decide_eq_true_eq] at this
        rw [← heq]
        exact fun hcontra => this hcontra.symm
    · rw [getD_set_ne _ _ _ _ _ hsame]
      exact hnd i hi

theorem find?_eq_of_mem_nodup (b : List DeviceEntry) (e : DeviceEntry)
    (hnd : (b.map (fun x => x.device_id)).Nodup) (he : e ∈ b) :
    b.find? (fun x => x.device_id = e.device_id) = some e := by
  induction b with
  | nil => cases he
  | cons f fs ih =>
    rcases List.mem_cons.mp he with he | he
    · subst he
      rw [List.find?_cons_of_pos _ (by simp)]
    · by_cases hf : f.device_id = e.device_id
      · exfalso
        have hmem : e.device_id ∈ fs.map (fun x => x.device_id) :=
          List.mem_map_of_mem _ he
        have := (List.pairwise_cons.mp hnd).1 e.device_id hmem
        exact this hf
      · rw [List.find?_cons_of_neg _ (by simpa using hf)]
        exact ih (List.pairwise_cons.mp hnd).2 he

theorem getLines_of_mem_bucket (t : DeviceHashTable) (hwf : TableWF t) :
    ∀ b ∈ t.buckets, ∀ e ∈ b, device_hash_table_get_lines t e.device_id = e.lines := by
  obtain ⟨hlen, hpos, hplace, hnd⟩ := hwf
  intro b hb e he
  obtain ⟨i, hi, hbi⟩ := List.mem_iff_getElem.mp hb
  have hgd : t.buckets.getD i [] = b := by
    simp [List.getD, List.getElem?_eq_getElem hi, hbi]
  have hplace2 := hplace i hi e (by rw [hgd]; exact he)
  rw [getLines_def, hplace2, hgd,
    find?_eq_of_mem_nodup b e (by rw [← hgd]; exact hnd i hi) he]

theorem deviceLinesSum_eq_entryLinesSum (t : DeviceHashTable) (hwf : TableWF t) :
    deviceLinesSum t = entryLinesSum t := by
  have hkey := getLines_of_mem_bucket t hwf
  unfold deviceLinesSum device_hash_table_get_all_devices entryLinesSum
  rw [List.map_flatten, List.sum_flatten, List.map_map, List.map_map]
  congr 1
  apply List.map_congr_left
  intro b hb
  show (((b.map (fun e => e.device_id)).map
    (fun d => (device_hash_table_get_lines t d).length)).sum) = bucketLinesSum b
  rw [List.map_map]
  unfold bucketLinesSum
  congr 1
  apply List.map_congr_left
  intro e he
  show (device_hash_table_get_lines t e.device_id).length = e.lines.length
  rw [hkey b hb e he]

theorem addLineStep_invariant (mapping : Bytes) (t : DeviceHashTable)
    (curr lineEnd : Nat) (hwf : TableWF t) :
    TableWF (addLineStep mapping t curr lineEnd).1 ∧
      entryLinesSum (addLineStep mapping t curr lineEnd).1
          + (addLineStep mapping t curr lineEnd).2.2
        = entryLinesSum t + (addLineStep mapping t curr lineEnd).2.1 ∧
      (addLineStep mapping t curr lineEnd).2.2
        ≤ (addLineStep mapping t curr lineEnd).2.1 := by
  unfold addLineStep
  by_cases hc : curr < lineEnd
  · rw [if_pos hc]
    cases hadd : device_hash_table_add_line mapping t curr with
    | none =>
      refine ⟨hwf, ?_, ?_⟩
      · show entryLinesSum t + 1 = entryLinesSum t + 1
        rfl
      · exact le_refl _
    | some t2 =>
      refine ⟨tableWF_addLine mapping t curr t2 hwf hadd, ?_, ?_⟩
      · show entryLinesSum t2 + 0 = entryLinesSum t + 1
        have := entryLinesSum_addLine mapping t curr t2 hwf.1 hwf.2.1 hadd
        omega
      · show (0 : Nat) ≤ 1
        omega
  · rw [if_neg hc]
    refine ⟨hwf, ?_, le_refl _⟩
    show entryLinesSum t + 0 = entryLinesSum t + 0
    rfl

theorem buildGo_invariant (mapping : Bytes) (fuel : Nat) :
    ∀ (t : DeviceHashTable) (curr : Nat), TableWF t →
      TableWF (buildDeviceTableGo mapping fuel t curr).1 ∧
        entryLinesSum (buildDeviceTableGo mapping fuel t curr).1
            + (buildDeviceTableGo mapping fuel t curr).2.2
          = entryLinesSum t + (buildDeviceTableGo mapping fuel t curr).2.1 ∧
        (buildDeviceTableGo mapping fuel t curr).2.2
          ≤ (buildDeviceTableGo mapping fuel t curr).2.1 := by
  induction fuel with
  | zero =>
    intro t curr hwf
    exact ⟨hwf, by simp [buildDeviceTableGo], by simp [buildDeviceTableGo]⟩
  | succ fuel ih =>
    intro t curr hwf
    by_cases hcur : curr < mapping.length
    · have hstep := addLineStep_invariant mapping t curr (lineEndFrom mapping curr) hwf
      have hrest := ih (addLineStep mapping t curr (lineEndFrom mapping curr)).1
        (lineEndFrom mapping curr + 1) hstep.1
      have hunf : buildDeviceTableGo mapping (fuel + 1) t curr
          = ((buildDeviceTableGo mapping fuel
                (addLineStep mapping t curr (lineEndFrom mapping curr)).1
                (lineEndFrom mapping curr + 1)).1,
             (addLineStep mapping t curr (lineEndFrom mapping curr)).2.1
               + (buildDeviceTableGo mapping fuel
                   (addLineStep mapping t curr (lineEndFrom mapping curr)).1
                   (lineEndFrom mapping curr + 1)).2.1,
             (addLineStep mapping t curr (lineEndFrom mapping curr)).2.2
               + (buildDeviceTableGo mapping fuel
                   (addLineStep mapping t curr (lineEndFrom mapping curr)).1
                   (lineEndFrom mapping curr + 1)).2.2) := by
        simp [buildDeviceTableGo, hcur]
      rw [hunf]
      exact ⟨hrest.1, by have h1 := hrest.2.1; have h2 := hstep.2.1; simp; omega,
        by have h1 := hrest.2.2; have h2 := hstep.2.2; simp; omega⟩
    · have hunf : buildDeviceTableGo mapping (fuel + 1) t curr = (t, 0, 0) := by
        simp [buildDeviceTableGo, hcur]
      rw [hunf]
      exact ⟨hwf, by simp, by simp⟩

/-- The device table built by the `map_device_csv` loop satisfies the
well-formedness invariant, and its stored-line total accounts exactly for
the counted lines minus the failed insertions. -/
theorem deviceTableBuild_invariant (mapping : Bytes)
    (bucketCount col start : Nat) :
    TableWF (deviceTableBuild mapping bucketCount col start).1 ∧
      entryLinesSum (deviceTableBuild mapping bucketCount col start).1
          + (deviceTableBuild mapping bucketCount col start).2.2
        = (deviceTableBuild mapping bucketCount col start).2.1 ∧
      (deviceTableBuild mapping bucketCount col start).2.2
        ≤ (deviceTableBuild mapping bucketCount col start).2.1 := by
  have h := buildGo_invariant mapping (mapping.length + 1)
    (device_hash_table_create bucketCount col) start (tableWF_create bucketCount col)
  have hzero : entryLinesSum (device_hash_table_create bucketCount col) = 0 := by
    unfold entryLinesSum device_hash_table_create
    have : ∀ n, (List.map bucketLinesSum
        (List.replicate n ([] : List DeviceEntry))).sum = 0 := by
      intro n
      induction n with
      | zero => rfl
      | succ n ihn =>
        rw [List.replicate_succ]
        simp [bucketLinesSum, ihn]
    exact this _
  unfold deviceTableBuild
  refine ⟨h.1, ?_, h.2.2⟩
  have := h.2.1
  rw [hzero] at this
  omega

/-- C7: after the `map_device_csv` build, the sum over all devices returned
by `device_hash_table_get_all_devices` of the per-device line counts
returned by `device_hash_table_get_lines` equals the number of counted data
lines minus the number of malformed (failed-insert) lines — stated first
for the build loop with an arbitrary bucket count and start offset, then for
`map_device_csv` itself — and every successful `device_hash_table_add_line`
grows exactly one device's list by one, leaving every other device's list
unchanged. -/
theorem C7_device_partition_sum :
    (∀ (mapping : Bytes) (bucketCount col start : Nat),
      deviceLinesSum (deviceTableBuild mapping bucketCount col start).1
          = (deviceTableBuild mapping bucketCount col start).2.1
            - (deviceTableBuild mapping bucketCount col start).2.2 ∧
        (deviceTableBuild mapping bucketCount col start).2.2
          ≤ (deviceTableBuild mapping bucketCount col start).2.1) ∧
      (∀ (mapping : Bytes) (col : Nat) (csv : DeviceMappedCSV),
        map_device_csv mapping col = some csv →
        deviceLinesSum csv.table = csv.data_count - csv.malformed ∧
          csv.malformed ≤ csv.data_count) ∧
      (∀ (mapping : Bytes) (t : DeviceHashTable) (off : Nat)
          (t' : DeviceHashTable),
        TableWF t → device_hash_table_add_line mapping t off = some t' →
        ∃ id,
          device_hash_table_get_lines t' id = device_hash_table_get_lines t id ++ [off] ∧
          ∀ d, d ≠ id →
            device_hash_table_get_lines t' d = device_hash_table_get_lines t d) := by
  have hbuild : ∀ (mapping : Bytes) (bucketCount col start : Nat),
      deviceLinesSum (deviceTableBuild mapping bucketCount col start).1
          = (deviceTableBuild mapping bucketCount col start).2.1
            - (deviceTableBuild mapping bucketCount col start).2.2 ∧
        (deviceTableBuild mapping bucketCount col start).2.2
          ≤ (deviceTableBuild mapping bucketCount col start).2.1 := by
    intro mapping bc col start
    have h := deviceTableBuild_invariant mapping bc col start
    have hsum := deviceLinesSum_eq_entryLinesSum _ h.1
    refine ⟨?_, h.2.2⟩
    rw [hsum]
    have := h.2.1
    omega
  refine ⟨hbuild, ?_, ?_⟩
  · intro mapping col csv hcsv
    unfold map_device_csv at hcsv
    by_cases hemp : mapping.length = 0
    · rw [if_pos hemp] at hcsv
      exact Option.noConfusion hcsv
    · rw [if_neg hemp] at hcsv
      cases hfi : mapping.findIdx? (· = '\n') with
      | none =>
        rw [hfi] at hcsv
        exact Option.noConfusion hcsv
      | some headerEnd =>
        rw [hfi] at hcsv
        have h2 := Option.some_injective _ hcsv
        subst h2
        exact hbuild mapping _ col (headerEnd + 1)
  · intro mapping t off t' hwf hadd
    obtain ⟨id, _, h1, h2⟩ :=
      getLines_addLine mapping t off t' hwf.1 hwf.2.1 hadd
    exact ⟨id, h1, h2⟩

/-- C7 witness: the accounting identity evaluated for the concrete mapping
`"h|d\n1|a\n2|b\nz\n"` (device column 1, 101 buckets, the pipe-less final
line is malformed), and the single-device growth applied to one concrete
`device_hash_table_add_line` call on an empty table. -/
theorem C7_device_partition_sum_witness :
    (deviceLinesSum (deviceTableBuild "h|d\n1|a\n2|b\nz\n".toList 101 1 4).1
        = (deviceTableBuild "h|d\n1|a\n2|b\nz\n".toList 101 1 4).2.1
          - (deviceTableBuild "h|d\n1|a\n2|b\nz\n".toList 101 1 4).2.2 ∧
      (deviceTableBuild "h|d\n1|a\n2|b\nz\n".toList 101 1 4).2.2
        ≤ (deviceTableBuild "h|d\n1|a\n2|b\nz\n".toList 101 1 4).2.1) ∧
      (∃ id,
        device_hash_table_get_lines c7After id
            = device_hash_table_get_lines (device_hash_table_create 101 1) id ++ [4] ∧
          ∀ d, d ≠ id →
            device_hash_table_get_lines c7After d
              = device_hash_table_get_lines (device_hash_table_create 101 1) d) :=
  ⟨C7_device_partition_sum.1 "h|d\n1|a\n2|b\nz\n".toList 101 1 4,
    C7_device_partition_sum.2.2 "h|d\n1|a\n2|b\nz\n".toList
      (device_hash_table_create 101 1) 4 c7After (tableWF_create 101 1) (by decide)⟩

end SensorCsv
